import Mathlib

/-!
# Timeline engine: shallow embedding and verification

This file embeds the core computations of the timeline component
(`Timeline.tsx`): the zoom-level configuration table, the mouse / touch
drag state machines, the coordinate projection `getTaskPosition`, the
row-packing algorithm `assignRows`, the task-bar classification memo, the
tick generator `generateTicks`, and the pan-centering arithmetic.

Modelling conventions:
* JavaScript numbers are modelled as exact rationals (`ℚ`); millisecond
  timestamps obtained from `Date.getTime()` are integers and are modelled
  as `ℤ`.  ISO date strings are identified with their epoch-millisecond
  values (parsing/printing round-trips are not modelled).
* `Math.round` is modelled as `⌊x + 1/2⌋`, its ECMAScript definition.
* The calendar arithmetic of `generateTicks` (JS `Date` local-time
  alignment and unit advance) is abstracted into two parameters
  `align`/`advance`; every concrete calendar unit instantiates `advance`
  with a strictly increasing function.  The loop is given explicit fuel;
  the `completed` component of the result is `true` exactly when the JS
  loop would have exited on its own condition within the given fuel.
* Only the task fields read by the modelled computations (`id`,
  `schedule`, `color`) are kept in the `Task` record.
-/

namespace Sched

open List

/-- The five zoom levels, widest to narrowest (`ZOOM_LEVELS`). -/
inductive ZoomLevel
  | months | weeks | days | hours | minutes
deriving DecidableEq

/-- Per-zoom-level static configuration (`ZOOM_CONFIGS` entries).
`format` is omitted: label formatting is presentation-only. -/
structure ZoomConfig where
  msPerPixel : ℚ
  tickInterval : ℤ
  minTickSpacing : ℚ
deriving DecidableEq

/-- The `ZOOM_CONFIGS` lookup table. -/
def ZOOM_CONFIGS : ZoomLevel → ZoomConfig
  | .months => ⟨86400000 * 7, 86400000 * 30, 50⟩
  | .weeks => ⟨86400000, 86400000 * 7, 45⟩
  | .days => ⟨86400000 / 40, 86400000, 35⟩
  | .hours => ⟨3600000 / 40, 3600000, 35⟩
  | .minutes => ⟨60000 / 35, 60000, 30⟩

/-- `snapInterval = zoomConfig.tickInterval / 4` (exact: every
`tickInterval` in the table is divisible by 4). -/
def snapIntervalOf (z : ZoomLevel) : ℤ := (ZOOM_CONFIGS z).tickInterval / 4

/-- A schedule: tagged union of a range (`start_iso`/`end_iso`) and a
point (`point_iso`), with instants as epoch milliseconds. -/
inductive Schedule
  | range (startMs endMs : ℤ)
  | point (pointMs : ℤ)
deriving DecidableEq

/-- Gesture interaction mode. -/
inductive DragMode
  | move | resizeStart | resizeEnd
deriving DecidableEq

/-- A task, restricted to the fields the timeline computations read. -/
structure Task where
  id : String
  schedule : Option Schedule
  color : String
deriving DecidableEq

/-- ECMAScript `Math.round`. -/
def jsRound (q : ℚ) : ℤ := ⌊q + 1 / 2⌋

/-- A schedule-update request `onTaskScheduleUpdate(taskId, schedule)`. -/
def Update := String × Schedule
deriving instance DecidableEq for Update

/-- Mouse drag gesture state (`dragState`). -/
structure DragState where
  taskId : String
  mode : DragMode
  startMouseX : ℚ
  originalSchedule : Schedule
deriving DecidableEq

/-- The snapped time delta computed by both move handlers from the
pointer position: `deltaMs = -deltaX * msPerPixel` snapped to the nearest
multiple of `tickInterval / 4`. -/
def snappedDelta (startX clientX : ℚ) (cfg : ZoomConfig) : ℤ :=
  let deltaX := clientX - startX
  let deltaMs := -deltaX * cfg.msPerPixel
  let snapInterval := cfg.tickInterval / 4
  jsRound (deltaMs / (snapInterval : ℚ)) * snapInterval

/-- One step of the mouse drag handler (`handleMouseMove`): the schedule
update emitted for the current pointer position, computed from the
gesture's original schedule snapshot. -/
def handleMouseMove (drag : DragState) (clientX : ℚ) (cfg : ZoomConfig) :
    Update :=
  let snapInterval := cfg.tickInterval / 4
  let snappedDeltaMs := snappedDelta drag.startMouseX clientX cfg
  match drag.originalSchedule with
  | .range s e =>
    match drag.mode with
    | .move => (drag.taskId, .range (s + snappedDeltaMs) (e + snappedDeltaMs))
    | .resizeStart =>
      let newStart := s + snappedDeltaMs
      let newStart := if e ≤ newStart then e - snapInterval else newStart
      (drag.taskId, .range newStart e)
    | .resizeEnd =>
      let newEnd := e + snappedDeltaMs
      let newEnd := if newEnd ≤ s then s + snapInterval else newEnd
      (drag.taskId, .range s newEnd)
  | .point p => (drag.taskId, .point (p + snappedDeltaMs))

/-- Touch drag gesture state (`TouchState`). -/
structure TouchState where
  taskId : String
  mode : DragMode
  startTouchX : ℚ
  startTouchY : ℚ
  originalSchedule : Schedule
  isActive : Bool
deriving DecidableEq

/-- `TOUCH_MOVE_THRESHOLD`: pixels of movement before a touch counts as
a drag. -/
def TOUCH_MOVE_THRESHOLD : ℚ := 10

/-- One step of the touch move handler (`handleTouchMove`).  Returns the
new touch state, the list of emitted schedule updates (empty or a
singleton), and whether the long-press timer was cancelled.  The
activation gate precedes the drag application: before activation, a
movement beyond the threshold that is more vertical than horizontal
abandons the gesture (state cleared, timer cancelled, nothing emitted),
while a more horizontal one activates the drag. -/
def handleTouchMove (touchState : Option TouchState) (clientX clientY : ℚ)
    (cfg : ZoomConfig) : Option TouchState × List Update × Bool :=
  match touchState with
  | none => (none, [], false)
  | some st₀ =>
    let deltaX := clientX - st₀.startTouchX
    let deltaY := clientY - st₀.startTouchY
    let applyDrag : TouchState → Bool → Option TouchState × List Update × Bool :=
      fun st cancelled =>
        let snapInterval := cfg.tickInterval / 4
        let snappedDeltaMs := snappedDelta st.startTouchX clientX cfg
        match st.originalSchedule with
        | .range s e =>
          match st.mode with
          | .move =>
            (some st, [(st.taskId, .range (s + snappedDeltaMs) (e + snappedDeltaMs))], cancelled)
          | .resizeStart =>
            let newStart := s + snappedDeltaMs
            let newStart := if e ≤ newStart then e - snapInterval else newStart
            (some st, [(st.taskId, .range newStart e)], cancelled)
          | .resizeEnd =>
            let newEnd := e + snappedDeltaMs
            let newEnd := if newEnd ≤ s then s + snapInterval else newEnd
            (some st, [(st.taskId, .range s newEnd)], cancelled)
        | .point p => (some st, [(st.taskId, .point (p + snappedDeltaMs))], cancelled)
    if st₀.isActive then applyDrag st₀ false
    else if TOUCH_MOVE_THRESHOLD < |deltaX| ∨ TOUCH_MOVE_THRESHOLD < |deltaY| then
      if |deltaX| < |deltaY| then (none, [], true)
      else applyDrag { st₀ with isActive := true } true
    else (some st₀, [], false)

/-- Run a sequence of touch move events through `handleTouchMove`,
collecting every emitted update. -/
def runTouchMoves (cfg : ZoomConfig) :
    Option TouchState → List (ℚ × ℚ) → Option TouchState × List Update
  | ts, [] => (ts, [])
  | ts, (x, y) :: evs =>
    let r := handleTouchMove ts x y cfg
    let rest := runTouchMoves cfg r.1 evs
    (rest.1, r.2.1 ++ rest.2)

/-- Projected pixel position of a task's schedule (`getTaskPosition`
return value). -/
structure Position where
  startX : ℚ
  endX : ℚ
  isPoint : Bool
deriving DecidableEq

/-- `getTaskPosition`: project a task's schedule into pixel space
(right-to-left: larger time maps to smaller x).  A range is normalized
with min/max; a point becomes a fixed-radius band; a task without a
schedule yields `none`. -/
def getTaskPosition (task : Task) (timelineStart : ℤ)
    (msPerPixel timelineWidth : ℚ) : Option Position :=
  match task.schedule with
  | none => none
  | some (.range s e) =>
    let startX := timelineWidth - ((s : ℚ) - (timelineStart : ℚ)) / msPerPixel
    let endX := timelineWidth - ((e : ℚ) - (timelineStart : ℚ)) / msPerPixel
    some ⟨min startX endX, max startX endX, false⟩
  | some (.point p) =>
    let x := timelineWidth - ((p : ℚ) - (timelineStart : ℚ)) / msPerPixel
    some ⟨x - 4, x + 4, true⟩

/-- A task bar before row assignment (`Omit<TaskBar, 'row'>`). -/
structure TaskBarNoRow where
  task : Task
  startX : ℚ
  endX : ℚ
  color : String
  isPoint : Bool
deriving DecidableEq

/-- Stable insertion of a bar into a list sorted ascending by `startX`
(the element is placed before the first strictly greater key, matching
the stable JS `sort((a, b) => a.startX - b.startX)`). -/
def insertByStartX (b : TaskBarNoRow) :
    List TaskBarNoRow → List TaskBarNoRow
  | [] => [b]
  | c :: cs =>
    if c.startX < b.startX then c :: insertByStartX b cs else b :: c :: cs

/-- Stable sort ascending by `startX`. -/
def sortByStartX : List TaskBarNoRow → List TaskBarNoRow
  | [] => []
  | b :: bs => insertByStartX b (sortByStartX bs)

/-- Index of the first active row whose tracked `endX` is at most the
given `startX` (the `for` scan inside `assignRows`). -/
def findFirstFit : List ℚ → ℚ → Option ℕ
  | [], _ => none
  | e :: rest, s =>
    if e ≤ s then some 0 else (findFirstFit rest s).map (· + 1)

/-- The greedy placement loop of `assignRows` over an already sorted
list, also returning the final active-row list (each entry is a row's
tracked rightmost `endX`). -/
def assignRowsGo (rows : List ℚ) :
    List TaskBarNoRow → List (TaskBarNoRow × ℕ) × List ℚ
  | [] => ([], rows)
  | b :: bs =>
    match findFirstFit rows b.startX with
    | some i =>
      let r := assignRowsGo (rows.set i b.endX) bs
      ((b, i) :: r.1, r.2)
    | none =>
      let r := assignRowsGo (rows ++ [b.endX]) bs
      ((b, rows.length) :: r.1, r.2)

/-- `assignRows`: sort ascending by `startX`, then place each bar in the
first row whose tracked `endX` does not exceed the bar's `startX`,
appending a new row when none fits. -/
def assignRows (taskBars : List TaskBarNoRow) : List (TaskBarNoRow × ℕ) :=
  (assignRowsGo [] (sortByStartX taskBars)).1

/-- The number of rows the greedy algorithm ends up with. -/
def numRowsUsed (taskBars : List TaskBarNoRow) : ℕ :=
  (assignRowsGo [] (sortByStartX taskBars)).2.length

/-- Two bars' `[startX, endX]` intervals overlap: each starts strictly
before the other ends.  Touching endpoints (`endX = startX`) do not
overlap, matching the `rows[i].endX <= bar.startX` reuse condition. -/
def Overlap (a b : TaskBarNoRow) : Prop :=
  a.startX < b.endX ∧ b.startX < a.endX

instance (a b : TaskBarNoRow) : Decidable (Overlap a b) :=
  inferInstanceAs (Decidable (_ ∧ _))

/-- A row assignment is valid when no two bars given the same row
overlap. -/
def ValidAssignment (A : List (TaskBarNoRow × ℕ)) : Prop :=
  A.Pairwise fun p q => p.2 = q.2 → ¬ Overlap p.1 q.1

instance (A : List (TaskBarNoRow × ℕ)) : Decidable (ValidAssignment A) :=
  inferInstanceAs (Decidable (List.Pairwise _ _))

/-- Number of distinct rows an assignment uses. -/
def rowsUsed (A : List (TaskBarNoRow × ℕ)) : ℕ :=
  (A.map Prod.snd).dedup.length

/-- `TASK_COLORS` palette. -/
def TASK_COLORS : List String :=
  ["#3b82f6", "#10b981", "#f59e0b", "#ef4444",
   "#8b5cf6", "#ec4899", "#06b6d4", "#f97316"]

/-- Result of the `taskBars`/`leftHints`/`rightHints` memo, before row
assignment. -/
structure BarsResult where
  bars : List TaskBarNoRow
  leftHints : List (Task × String)
  rightHints : List (Task × String)
deriving DecidableEq

/-- The classification loop of the memo: every scheduled task is
projected and routed to visible bars (clamped to `[0, width]`), left
off-screen hints, or right off-screen hints. -/
def classifyTasksGo (visibleStart : ℤ) (msPerPixel width : ℚ) :
    ℕ → List Task → BarsResult
  | _, [] => ⟨[], [], []⟩
  | index, task :: rest =>
    let r := classifyTasksGo visibleStart msPerPixel width (index + 1) rest
    match task.schedule with
    | none => r
    | some _ =>
      let color :=
        if task.color = "auto" then
          TASK_COLORS.getD (index % TASK_COLORS.length) ""
        else task.color
      match getTaskPosition task visibleStart msPerPixel width with
      | none => r
      | some pos =>
        if 0 ≤ pos.endX ∧ pos.startX ≤ width then
          { r with bars :=
              ⟨task, max 0 pos.startX, min width pos.endX, color, pos.isPoint⟩ :: r.bars }
        else if pos.endX < 0 then
          { r with leftHints := (task, color) :: r.leftHints }
        else if width < pos.startX then
          { r with rightHints := (task, color) :: r.rightHints }
        else r

/-- The `taskBars`/`leftHints`/`rightHints` memo body (before the final
`assignRows` call on the visible bars). -/
def taskBarsMemo (tasks : List Task) (visibleStart : ℤ)
    (msPerPixel width : ℚ) : BarsResult :=
  classifyTasksGo visibleStart msPerPixel width 0 tasks

/-- An axis tick: pixel position and the instant it labels (the
formatted label string is presentation-only and omitted). -/
structure Tick where
  x : ℚ
  t : ℤ
deriving DecidableEq

/-- One body execution of the `generateTicks` loop: possibly retain a
tick for `currentTime` (kept only when its pixel position lies in
`[0, width]` and is at least `minTickSpacing` away from the previously
kept tick), returning the retained tick (if any), the updated
`tickCount`, and the updated `lastAddedX`. -/
def tickStep (timelineStart : ℤ) (timelineWidth msPerPixel minTickSpacing : ℚ)
    (currentTime : ℤ) (tickCount : ℕ) (lastAddedX : Option ℚ) :
    Option Tick × ℕ × Option ℚ :=
  if timelineStart ≤ currentTime then
    let x := timelineWidth - ((currentTime : ℚ) - (timelineStart : ℚ)) / msPerPixel
    if 0 ≤ x ∧ x ≤ timelineWidth then
      match lastAddedX with
      | none => (some ⟨x, currentTime⟩, tickCount + 1, some x)
      | some lx =>
        if minTickSpacing ≤ |x - lx| then
          (some ⟨x, currentTime⟩, tickCount + 1, some x)
        else (none, tickCount, lastAddedX)
    else (none, tickCount, lastAddedX)
  else (none, tickCount, lastAddedX)

/-- The `while` loop of `generateTicks`, with the calendar-unit advance
abstracted as `advance` and explicit fuel.  Returns the retained ticks,
the number of loop-body executions, and whether the loop exited on its
own condition (`false` only when the fuel ran out first). -/
def genTicksGo (advance : ℤ → ℤ) (timelineStart timelineEnd : ℤ)
    (timelineWidth msPerPixel minTickSpacing : ℚ)
    (fuel : ℕ) (currentTime : ℤ) (tickCount : ℕ) (lastAddedX : Option ℚ) :
    List Tick × ℕ × Bool :=
  if hf : fuel = 0 then ([], 0, false)
  else if currentTime ≤ timelineEnd ∧ tickCount < 100 then
    let step := tickStep timelineStart timelineWidth msPerPixel minTickSpacing
      currentTime tickCount lastAddedX
    if 100 < step.2.1 then (step.1.toList, 1, true)
    else
      let rest := genTicksGo advance timelineStart timelineEnd timelineWidth
        msPerPixel minTickSpacing (fuel - 1) (advance currentTime) step.2.1 step.2.2
      (step.1.toList ++ rest.1, rest.2.1 + 1, rest.2.2)
  else ([], 0, true)
termination_by fuel
decreasing_by omega

/-- `generateTicks`: start from the calendar-aligned instant at or
before the window start (`align`) and iterate `advance`.  The fuel is
one more than the window span in milliseconds, enough for any advance
that moves time forward by at least 1ms per step. -/
def generateTicks (align advance : ℤ → ℤ) (timelineStart timelineEnd : ℤ)
    (timelineWidth msPerPixel minTickSpacing : ℚ) : List Tick × ℕ × Bool :=
  genTicksGo advance timelineStart timelineEnd timelineWidth msPerPixel
    minTickSpacing ((timelineEnd + 1 - align timelineStart).toNat + 1)
    (align timelineStart) 0 none

/-- Fixed-offset model of the `minute` calendar unit: floor to a minute
boundary / add one minute. -/
def minuteAlign (t : ℤ) : ℤ := 60000 * (t / 60000)

/-- Advance one minute. -/
def minuteAdvance (t : ℤ) : ℤ := t + 60000

/-- Fixed-offset model of the `week` calendar unit boundary. -/
def weekAlign (t : ℤ) : ℤ := 604800000 * (t / 604800000)

/-- Advance one week (`setDate(getDate() + 7)`). -/
def weekAdvance (t : ℤ) : ℤ := t + 604800000

/-- `clampedNow`: "now" clamped into the timeline range. -/
def clampedNow (timelineStart timelineEnd now : ℤ) : ℤ :=
  max timelineStart (min timelineEnd now)

/-- `centerTime = clampedNow + panOffset`. -/
def centerTime (timelineStart timelineEnd now : ℤ) (panOffset : ℚ) : ℚ :=
  (clampedNow timelineStart timelineEnd now : ℚ) + panOffset

/-- `visibleStart = centerTime - visibleDuration / 2` with
`visibleDuration = width * msPerPixel`. -/
def visibleStartOf (timelineStart timelineEnd now : ℤ)
    (panOffset width msPerPixel : ℚ) : ℚ :=
  centerTime timelineStart timelineEnd now panOffset - width * msPerPixel / 2

/-- `visibleEnd = centerTime + visibleDuration / 2`. -/
def visibleEndOf (timelineStart timelineEnd now : ℤ)
    (panOffset width msPerPixel : ℚ) : ℚ :=
  centerTime timelineStart timelineEnd now panOffset + width * msPerPixel / 2

/-- The instant a scheduled task is indexed by in
`sortedScheduledTasks`: a range's start, a point's instant. -/
def scheduleTime : Schedule → ℤ
  | .range s _ => s
  | .point p => p

/-- Stable insertion by ascending time (JS stable
`sort((a, b) => a.time - b.time)`). -/
def insertByTime (p : Task × ℤ) : List (Task × ℤ) → List (Task × ℤ)
  | [] => [p]
  | q :: qs => if q.2 < p.2 then q :: insertByTime p qs else p :: q :: qs

/-- Stable sort by ascending time. -/
def sortByTime : List (Task × ℤ) → List (Task × ℤ)
  | [] => []
  | p :: ps => insertByTime p (sortByTime ps)

/-- `sortedScheduledTasks`: scheduled tasks with their instants, sorted
ascending by time. -/
def sortedScheduledTasks (tasks : List Task) : List (Task × ℤ) :=
  sortByTime (tasks.filterMap fun t =>
    t.schedule.map fun s => (t, scheduleTime s))

/-- `navigateToTask`: for an in-bounds index, the new pan offset
`targetTime - clampedNow` together with the focused task id; out of
bounds, no change. -/
def navigateToTask (tasks : List Task) (taskIndex : ℕ)
    (timelineStart timelineEnd now : ℤ) : Option (ℚ × String) :=
  match (sortedScheduledTasks tasks)[taskIndex]? with
  | none => none
  | some (t, targetTime) =>
    some (((targetTime : ℚ) - (clampedNow timelineStart timelineEnd now : ℚ)), t.id)

/-! ## Drag clamp properties -/

lemma snapIntervalOf_pos (z : ZoomLevel) : 0 < snapIntervalOf z := by
  cases z <;> decide

lemma resize_start_clamp_lt (s e k snap : ℤ) (hsnap : 0 < snap) :
    (if e ≤ s + k * snap then e - snap else s + k * snap) < e := by
  split <;> omega

lemma resize_end_clamp_gt (s e k snap : ℤ) (hsnap : 0 < snap) :
    s < (if e + k * snap ≤ s then s + snap else e + k * snap) := by
  split <;> omega

lemma resize_start_clamp_le (s e k snap m : ℤ) (hsnap : 0 < snap)
    (hdur : e - s = m * snap) :
    (if e ≤ s + k * snap then e - snap else s + k * snap) ≤ e - snap := by
  split
  · omega
  · rename_i h
    push_neg at h
    have h2 : e - (s + k * snap) = (m - k) * snap := by
      calc e - (s + k * snap) = (e - s) - k * snap := by ring
        _ = m * snap - k * snap := by rw [hdur]
        _ = (m - k) * snap := by ring
    have h4 : 0 < (m - k) * snap := by omega
    have h5 : 1 ≤ m - k := by nlinarith
    have h7 : snap ≤ (m - k) * snap := le_mul_of_one_le_left hsnap.le h5
    omega

lemma resize_end_clamp_ge (s e k snap m : ℤ) (hsnap : 0 < snap)
    (hdur : e - s = m * snap) :
    s + snap ≤ (if e + k * snap ≤ s then s + snap else e + k * snap) := by
  split
  · omega
  · rename_i h
    push_neg at h
    have h2 : (e + k * snap) - s = (m + k) * snap := by
      calc (e + k * snap) - s = (e - s) + k * snap := by ring
        _ = m * snap + k * snap := by rw [hdur]
        _ = (m + k) * snap := by ring
    have h4 : 0 < (m + k) * snap := by omega
    have h5 : 1 ≤ m + k := by nlinarith
    have h7 : snap ≤ (m + k) * snap := le_mul_of_one_le_left hsnap.le h5
    omega

/-- C2: for every active drag on a range schedule and every pointer
position, a `resize-start` step emits a schedule with `start < end`, and
a `resize-end` step emits one with `start < end`, on both the mouse and
the touch paths. -/
theorem c2_resize_never_inverts (z : ZoomLevel) (id : String)
    (x₀ y₀ cx cy : ℚ) (s e : ℤ) :
    (∃ s' e', handleMouseMove ⟨id, .resizeStart, x₀, .range s e⟩ cx
        (ZOOM_CONFIGS z) = (id, .range s' e') ∧ s' < e') ∧
    (∃ s' e', handleMouseMove ⟨id, .resizeEnd, x₀, .range s e⟩ cx
        (ZOOM_CONFIGS z) = (id, .range s' e') ∧ s' < e') ∧
    (∃ s' e', handleTouchMove (some ⟨id, .resizeStart, x₀, y₀, .range s e, true⟩)
        cx cy (ZOOM_CONFIGS z)
        = (some ⟨id, .resizeStart, x₀, y₀, .range s e, true⟩,
           [(id, .range s' e')], false) ∧ s' < e') ∧
    (∃ s' e', handleTouchMove (some ⟨id, .resizeEnd, x₀, y₀, .range s e, true⟩)
        cx cy (ZOOM_CONFIGS z)
        = (some ⟨id, .resizeEnd, x₀, y₀, .range s e, true⟩,
           [(id, .range s' e')], false) ∧ s' < e') := by
  have hsnap : 0 < (ZOOM_CONFIGS z).tickInterval / 4 := snapIntervalOf_pos z
  exact ⟨⟨_, e, rfl, resize_start_clamp_lt _ _ _ _ hsnap⟩,
    ⟨s, _, rfl, resize_end_clamp_gt _ _ _ _ hsnap⟩,
    ⟨_, e, rfl, resize_start_clamp_lt _ _ _ _ hsnap⟩,
    ⟨s, _, rfl, resize_end_clamp_gt _ _ _ _ hsnap⟩⟩

/-- C5: a `move` step shifts both endpoints of a range schedule by
exactly the snapped delta, preserving the duration, on both the mouse
and the touch paths. -/
theorem c5_move_preserves_duration (z : ZoomLevel) (id : String)
    (x₀ y₀ cx cy : ℚ) (s e : ℤ) :
    handleMouseMove ⟨id, .move, x₀, .range s e⟩ cx (ZOOM_CONFIGS z)
      = (id, .range (s + snappedDelta x₀ cx (ZOOM_CONFIGS z))
               (e + snappedDelta x₀ cx (ZOOM_CONFIGS z))) ∧
    handleTouchMove (some ⟨id, .move, x₀, y₀, .range s e, true⟩) cx cy
        (ZOOM_CONFIGS z)
      = (some ⟨id, .move, x₀, y₀, .range s e, true⟩,
         [(id, .range (s + snappedDelta x₀ cx (ZOOM_CONFIGS z))
                 (e + snappedDelta x₀ cx (ZOOM_CONFIGS z)))], false) ∧
    (e + snappedDelta x₀ cx (ZOOM_CONFIGS z))
      - (s + snappedDelta x₀ cx (ZOOM_CONFIGS z)) = e - s :=
  ⟨rfl, rfl, by omega⟩

/-- C3 counterexample: at `minutes` zoom (`snapInterval = 15000` ms), a
resize-start step with snapped delta 0 on an original schedule of
duration 10000 ms emits that same schedule, whose duration is below
`snapInterval`, refuting `start ≤ end - snapInterval`. -/
theorem c3_counterexample :
    handleMouseMove ⟨"t", .resizeStart, 0, .range 0 10000⟩ 0
        (ZOOM_CONFIGS .minutes) = ("t", .range 0 10000) ∧
    ¬ ((0 : ℤ) ≤ 10000 - snapIntervalOf .minutes) := by
  constructor
  · show (("t", Schedule.range (if (10000 : ℤ) ≤ 0 + snappedDelta 0 0 (ZOOM_CONFIGS .minutes) then _ else _) 10000) : Update) = _
    norm_num [snappedDelta, jsRound, ZOOM_CONFIGS]
  · norm_num [snapIntervalOf, ZOOM_CONFIGS]

/-- C3 (amended): when the original duration is an integer multiple of
`snapInterval`, every resize step keeps the duration at least
`snapInterval`: after `resize-start`, `start ≤ end - snapInterval`;
after `resize-end`, `end ≥ start + snapInterval` — on both the mouse and
the touch paths.  (Without the multiple hypothesis this fails: see the
counterexample, where an original duration below `snapInterval` is kept
as-is.) -/
theorem c3_min_duration_amended (z : ZoomLevel) (id : String)
    (x₀ y₀ cx cy : ℚ) (s e m : ℤ)
    (hdur : e - s = m * snapIntervalOf z) :
    (∃ s', handleMouseMove ⟨id, .resizeStart, x₀, .range s e⟩ cx
        (ZOOM_CONFIGS z) = (id, .range s' e) ∧ s' ≤ e - snapIntervalOf z) ∧
    (∃ e', handleMouseMove ⟨id, .resizeEnd, x₀, .range s e⟩ cx
        (ZOOM_CONFIGS z) = (id, .range s e') ∧ s + snapIntervalOf z ≤ e') ∧
    (∃ s', handleTouchMove (some ⟨id, .resizeStart, x₀, y₀, .range s e, true⟩)
        cx cy (ZOOM_CONFIGS z)
        = (some ⟨id, .resizeStart, x₀, y₀, .range s e, true⟩,
           [(id, .range s' e)], false) ∧ s' ≤ e - snapIntervalOf z) ∧
    (∃ e', handleTouchMove (some ⟨id, .resizeEnd, x₀, y₀, .range s e, true⟩)
        cx cy (ZOOM_CONFIGS z)
        = (some ⟨id, .resizeEnd, x₀, y₀, .range s e, true⟩,
           [(id, .range s e')], false) ∧ s + snapIntervalOf z ≤ e') := by
  have hsnap : 0 < (ZOOM_CONFIGS z).tickInterval / 4 := snapIntervalOf_pos z
  exact ⟨⟨_, rfl, resize_start_clamp_le _ _ _ _ m hsnap hdur⟩,
    ⟨_, rfl, resize_end_clamp_ge _ _ _ _ m hsnap hdur⟩,
    ⟨_, rfl, resize_start_clamp_le _ _ _ _ m hsnap hdur⟩,
    ⟨_, rfl, resize_end_clamp_ge _ _ _ _ m hsnap hdur⟩⟩

/-- Witness for the amended C3 at a concrete input. -/
theorem c3_min_duration_amended_witness :
    ((30000 : ℤ) - 0 = 2 * snapIntervalOf .minutes) ∧
    (∃ s', handleMouseMove ⟨"t", .resizeStart, 0, .range 0 30000⟩ 0
        (ZOOM_CONFIGS .minutes) = ("t", .range s' 30000) ∧
        s' ≤ 30000 - snapIntervalOf .minutes) :=
  ⟨by decide,
   (c3_min_duration_amended .minutes "t" 0 0 0 0 0 30000 2 (by decide)).1⟩

/-- C9: a range schedule, inverted or not, is projected by
`getTaskPosition` to a normalized interval: the result is always `some`,
with `startX`/`endX` the min/max of the two mapped endpoints. -/
theorem c9_inverted_range_normalized (id color : String) (s e ts : ℤ)
    (mpp w : ℚ) :
    ∃ p : Position,
      getTaskPosition ⟨id, some (.range s e), color⟩ ts mpp w = some p ∧
      p.startX ≤ p.endX ∧
      p.startX = min (w - ((s : ℚ) - (ts : ℚ)) / mpp)
        (w - ((e : ℚ) - (ts : ℚ)) / mpp) ∧
      p.endX = max (w - ((s : ℚ) - (ts : ℚ)) / mpp)
        (w - ((e : ℚ) - (ts : ℚ)) / mpp) :=
  ⟨_, rfl, min_le_max, rfl, rfl⟩

/-! ## Touch gesture abandonment -/

lemma runTouchMoves_none (cfg : ZoomConfig) (evs : List (ℚ × ℚ)) :
    runTouchMoves cfg none evs = (none, []) := by
  induction evs with
  | nil => rfl
  | cons e evs ih => cases e; simp [runTouchMoves, handleTouchMove, ih]

/-- C7: a not-yet-activated touch gesture whose first
threshold-exceeding movement is more vertical than horizontal is
abandoned: the state is cleared, the long-press timer is cancelled, no
update is emitted, and no later event of the cleared gesture emits
anything. -/
theorem c7_touch_scroll_abandon (st : TouchState) (cx cy : ℚ)
    (cfg : ZoomConfig) (evs : List (ℚ × ℚ))
    (hact : st.isActive = false)
    (hthr : TOUCH_MOVE_THRESHOLD < |cx - st.startTouchX| ∨
      TOUCH_MOVE_THRESHOLD < |cy - st.startTouchY|)
    (hvert : |cx - st.startTouchX| < |cy - st.startTouchY|) :
    handleTouchMove (some st) cx cy cfg = (none, [], true) ∧
    runTouchMoves cfg none evs = (none, []) := by
  refine ⟨?_, runTouchMoves_none cfg evs⟩
  simp only [handleTouchMove, hact]
  rw [if_neg (by simp), if_pos hthr, if_pos hvert]

/-- Witness for C7 at a concrete input. -/
theorem c7_touch_scroll_abandon_witness :
    ((⟨"t", .move, 0, 0, .point 0, false⟩ : TouchState).isActive = false ∧
     (TOUCH_MOVE_THRESHOLD < |(0 : ℚ) - 0| ∨ TOUCH_MOVE_THRESHOLD < |(20 : ℚ) - 0|) ∧
     |(0 : ℚ) - 0| < |(20 : ℚ) - 0|) ∧
    handleTouchMove (some ⟨"t", .move, 0, 0, .point 0, false⟩) 0 20
        (ZOOM_CONFIGS .days) = (none, [], true) ∧
    runTouchMoves (ZOOM_CONFIGS .days) none [(5, 5)] = (none, []) :=
  ⟨⟨rfl, by norm_num [TOUCH_MOVE_THRESHOLD], by norm_num⟩,
   c7_touch_scroll_abandon ⟨"t", .move, 0, 0, .point 0, false⟩ 0 20
     (ZOOM_CONFIGS .days) [(5, 5)] rfl
     (by norm_num [TOUCH_MOVE_THRESHOLD]) (by norm_num)⟩

/-! ## Pan centering -/

/-- C8: with `panOffset = 0` the visible window's midpoint is
`clamp(now, timelineStart, timelineEnd)`; `navigateToTask` on an
in-bounds index sets `panOffset = taskInstant - clampedNow`, making the
new midpoint exactly the task's indexed instant (a range's start, a
point's instant). -/
theorem c8_pan_centering (ts te now : ℤ) (width mpp : ℚ)
    (tasks : List Task) (i : ℕ) (t : Task) (time : ℤ)
    (hidx : (sortedScheduledTasks tasks)[i]? = some (t, time)) :
    (visibleStartOf ts te now 0 width mpp
      + visibleEndOf ts te now 0 width mpp) / 2
      = (clampedNow ts te now : ℚ) ∧
    navigateToTask tasks i ts te now
      = some (((time : ℚ) - (clampedNow ts te now : ℚ)), t.id) ∧
    (visibleStartOf ts te now ((time : ℚ) - (clampedNow ts te now : ℚ)) width mpp
      + visibleEndOf ts te now ((time : ℚ) - (clampedNow ts te now : ℚ)) width mpp) / 2
      = (time : ℚ) ∧
    (∀ a b : ℤ, scheduleTime (.range a b) = a) := by
  refine ⟨?_, ?_, ?_, fun a b => rfl⟩
  · unfold visibleStartOf visibleEndOf centerTime; ring
  · unfold navigateToTask; rw [hidx]
  · unfold visibleStartOf visibleEndOf centerTime; ring

/-- Witness for C8 at a concrete input. -/
theorem c8_pan_centering_witness :
    ((sortedScheduledTasks [⟨"a", some (.point 5), "x"⟩])[0]?
      = some (⟨"a", some (.point 5), "x"⟩, 5)) ∧
    navigateToTask [⟨"a", some (.point 5), "x"⟩] 0 0 10 3
      = some (((5 : ℤ) : ℚ) - ((clampedNow 0 10 3 : ℤ) : ℚ), "a") :=
  ⟨by decide,
   (c8_pan_centering 0 10 3 1 1 [⟨"a", some (.point 5), "x"⟩] 0
     ⟨"a", some (.point 5), "x"⟩ 5 (by decide)).2.1⟩

/-! ## Task classification (visible bars / off-screen hints) -/

lemma getTaskPosition_norm (t : Task) (ts : ℤ) (mpp w : ℚ) (pos : Position)
    (h : getTaskPosition t ts mpp w = some pos) : pos.startX ≤ pos.endX := by
  rcases hs : t.schedule with _ | (⟨s, e⟩ | p) <;>
    simp only [getTaskPosition, hs, Option.some.injEq] at h
  · exact absurd h (by simp)
  · subst h; exact min_le_max
  · subst h; dsimp only; linarith

lemma getTaskPosition_of_scheduled (t : Task) (sch : Schedule) (ts : ℤ)
    (mpp w : ℚ) (hs : t.schedule = some sch) :
    (getTaskPosition t ts mpp w).isSome := by
  rcases sch with ⟨s, e⟩ | p <;> simp [getTaskPosition, hs]

lemma classify_partition_clamp (vs : ℤ) (mpp width : ℚ) (hw : 0 ≤ width) :
    ∀ (tasks : List Task) (idx : ℕ),
      ((classifyTasksGo vs mpp width idx tasks).bars.length
        + (classifyTasksGo vs mpp width idx tasks).leftHints.length
        + (classifyTasksGo vs mpp width idx tasks).rightHints.length
        = (tasks.filter fun t => t.schedule.isSome).length) ∧
      ∀ b ∈ (classifyTasksGo vs mpp width idx tasks).bars,
        0 ≤ b.startX ∧ b.startX ≤ b.endX ∧ b.endX ≤ width := by
  intro tasks
  induction tasks with
  | nil => intro idx; exact ⟨rfl, by simp [classifyTasksGo]⟩
  | cons task rest ih =>
    intro idx
    obtain ⟨ih1, ih2⟩ := ih (idx + 1)
    rcases hs : task.schedule with _ | sch
    · have hfil : List.filter (fun t => t.schedule.isSome) (task :: rest)
          = List.filter (fun t => t.schedule.isSome) rest :=
        List.filter_cons_of_neg (by simp [hs])
      rw [hfil]
      constructor
      · simpa [classifyTasksGo, hs] using ih1
      · simpa [classifyTasksGo, hs] using ih2
    · have hfil : List.filter (fun t => t.schedule.isSome) (task :: rest)
          = task :: List.filter (fun t => t.schedule.isSome) rest :=
        List.filter_cons_of_pos (by simp [hs])
      rw [hfil]
      rcases hgp : getTaskPosition task vs mpp width with _ | pos
      · have := getTaskPosition_of_scheduled task sch vs mpp width hs
        rw [hgp] at this
        simp at this
      have hse : pos.startX ≤ pos.endX := getTaskPosition_norm _ _ _ _ _ hgp
      simp only [classifyTasksGo, hs, hgp]
      by_cases h1 : 0 ≤ pos.endX ∧ pos.startX ≤ width
      · rw [if_pos h1]
        constructor
        · simp only [List.length_cons]; omega
        · intro b hb
          rcases List.mem_cons.mp hb with hb | hb
          · subst hb
            refine ⟨le_max_left _ _, ?_, min_le_left _ _⟩
            exact max_le (le_min hw h1.1) (le_min h1.2 hse)
          · exact ih2 b hb
      · rw [if_neg h1]
        push_neg at h1
        by_cases h2 : pos.endX < 0
        · rw [if_pos h2]
          exact ⟨by simp only [List.length_cons]; omega, ih2⟩
        · rw [if_neg h2]
          push_neg at h2
          have h3 : width < pos.startX := h1 h2
          rw [if_pos h3]
          exact ⟨by simp only [List.length_cons]; omega, ih2⟩

/-- C10: every scheduled task lands in exactly one of the three derived
sets (visible bars, left hints, right hints): the three sets' sizes add
up to the number of scheduled tasks, the routing conditions on the
projected interval are mutually exclusive and exhaustive, and every
visible bar is clamped to `0 ≤ startX ≤ endX ≤ width` before row
packing. -/
theorem c10_partition_and_clamp (tasks : List Task) (vs : ℤ)
    (mpp width : ℚ) (hw : 0 ≤ width) :
    ((taskBarsMemo tasks vs mpp width).bars.length
      + (taskBarsMemo tasks vs mpp width).leftHints.length
      + (taskBarsMemo tasks vs mpp width).rightHints.length
      = (tasks.filter fun t => t.schedule.isSome).length) ∧
    (∀ b ∈ (taskBarsMemo tasks vs mpp width).bars,
      0 ≤ b.startX ∧ b.startX ≤ b.endX ∧ b.endX ≤ width) ∧
    (∀ (t : Task) (pos : Position),
      getTaskPosition t vs mpp width = some pos →
      ((0 ≤ pos.endX ∧ pos.startX ≤ width) ∨ pos.endX < 0 ∨ width < pos.startX) ∧
      ¬ ((0 ≤ pos.endX ∧ pos.startX ≤ width) ∧ pos.endX < 0) ∧
      ¬ ((0 ≤ pos.endX ∧ pos.startX ≤ width) ∧ width < pos.startX) ∧
      ¬ (pos.endX < 0 ∧ width < pos.startX)) := by
  obtain ⟨h1, h2⟩ := classify_partition_clamp vs mpp width hw tasks 0
  refine ⟨h1, h2, fun t pos hpos => ?_⟩
  have hse : pos.startX ≤ pos.endX := getTaskPosition_norm _ _ _ _ _ hpos
  refine ⟨?_, fun h => absurd h.1.1 (not_le.mpr h.2), fun h => absurd h.1.2 (not_le.mpr h.2), fun h => ?_⟩
  · by_cases hA : 0 ≤ pos.endX ∧ pos.startX ≤ width
    · exact Or.inl hA
    · push_neg at hA
      by_cases hB : pos.endX < 0
      · exact Or.inr (Or.inl hB)
      · push_neg at hB
        exact Or.inr (Or.inr (hA hB))
  · linarith [h.1, h.2]

/-- Witness for C10 at a concrete input. -/
theorem c10_partition_and_clamp_witness :
    ((0 : ℚ) ≤ 100) ∧
    ((taskBarsMemo [⟨"a", some (.point 5), "x"⟩] 0 1 100).bars.length
      + (taskBarsMemo [⟨"a", some (.point 5), "x"⟩] 0 1 100).leftHints.length
      + (taskBarsMemo [⟨"a", some (.point 5), "x"⟩] 0 1 100).rightHints.length
      = (List.filter (fun t : Task => t.schedule.isSome)
          [⟨"a", some (.point 5), "x"⟩]).length) :=
  ⟨by norm_num,
   (c10_partition_and_clamp [⟨"a", some (.point 5), "x"⟩] 0 1 100 (by norm_num)).1⟩

/-! ## Tick generation -/

lemma tickStep_cases (ts : ℤ) (w mpp msp : ℚ) (cur : ℤ) (cnt : ℕ)
    (lx : Option ℚ) :
    (∃ tk : Tick,
      tickStep ts w mpp msp cur cnt lx = (some tk, cnt + 1, some tk.x) ∧
      0 ≤ tk.x ∧ tk.x ≤ w ∧ (∀ a, lx = some a → msp ≤ |tk.x - a|) ∧
      tk.x = w - ((cur : ℚ) - (ts : ℚ)) / mpp) ∨
    tickStep ts w mpp msp cur cnt lx = (none, cnt, lx) := by
  unfold tickStep
  split
  · dsimp only
    split
    · rename_i hx
      cases lx with
      | none => exact Or.inl ⟨⟨_, cur⟩, rfl, hx.1, hx.2, by simp, rfl⟩
      | some a =>
        dsimp only
        split
        · rename_i hsp
          refine Or.inl ⟨⟨_, cur⟩, rfl, hx.1, hx.2, fun b hb => ?_, rfl⟩
          injection hb with hab
          subst hab
          exact hsp
        · exact Or.inr rfl
    · exact Or.inr rfl
  · exact Or.inr rfl

lemma genTicksGo_inrange (adv : ℤ → ℤ) (ts te : ℤ) (w mpp msp : ℚ) :
    ∀ (fuel : ℕ) (cur : ℤ) (cnt : ℕ) (lx : Option ℚ),
      ∀ tk ∈ (genTicksGo adv ts te w mpp msp fuel cur cnt lx).1,
        0 ≤ tk.x ∧ tk.x ≤ w := by
  intro fuel
  induction fuel with
  | zero =>
    intro cur cnt lx tk htk
    rw [genTicksGo] at htk
    simp at htk
  | succ n ih =>
    intro cur cnt lx tk htk
    rw [genTicksGo] at htk
    rw [dif_neg (Nat.succ_ne_zero n)] at htk
    by_cases hg : cur ≤ te ∧ cnt < 100
    · rw [if_pos hg] at htk
      rcases tickStep_cases ts w mpp msp cur cnt lx with
        ⟨tk0, hstep, h0, h1, _, _⟩ | hstep <;> rw [hstep] at htk <;> dsimp only at htk
      · by_cases hbrk : 100 < cnt + 1
        · rw [if_pos hbrk] at htk
          simp only [Option.toList_some, List.mem_singleton] at htk
          subst htk
          exact ⟨h0, h1⟩
        · rw [if_neg hbrk] at htk
          dsimp only at htk
          rcases List.mem_append.mp htk with htk | htk
          · simp only [Option.toList_some, List.mem_singleton] at htk
            subst htk
            exact ⟨h0, h1⟩
          · exact ih (adv cur) (cnt + 1) (some tk0.x) tk (by simpa using htk)
      · by_cases hbrk : 100 < cnt
        · rw [if_pos hbrk] at htk
          simp at htk
        · rw [if_neg hbrk] at htk
          dsimp only at htk
          rcases List.mem_append.mp htk with htk | htk
          · simp at htk
          · exact ih (adv cur) cnt lx tk (by simpa using htk)
    · rw [if_neg hg] at htk
      simp at htk

lemma genTicksGo_spacing (adv : ℤ → ℤ) (ts te : ℤ) (w mpp msp : ℚ) :
    ∀ (fuel : ℕ) (cur : ℤ) (cnt : ℕ) (lx : Option ℚ),
      List.Chain' (fun a b : Tick => msp ≤ |b.x - a.x|)
        (genTicksGo adv ts te w mpp msp fuel cur cnt lx).1 ∧
      ∀ a, lx = some a →
        ∀ hd ∈ (genTicksGo adv ts te w mpp msp fuel cur cnt lx).1.head?,
          msp ≤ |hd.x - a| := by
  intro fuel
  induction fuel with
  | zero =>
    intro cur cnt lx
    rw [genTicksGo]
    simp
  | succ n ih =>
    intro cur cnt lx
    rw [genTicksGo]
    rw [dif_neg (Nat.succ_ne_zero n)]
    by_cases hg : cur ≤ te ∧ cnt < 100
    · rw [if_pos hg]
      rcases tickStep_cases ts w mpp msp cur cnt lx with
        ⟨tk0, hstep, _, _, hsp, _⟩ | hstep <;> rw [hstep] <;> dsimp only
      · by_cases hbrk : 100 < cnt + 1
        · rw [if_pos hbrk]
          refine ⟨by simp, fun a ha hd hhd => ?_⟩
          simp only [Option.toList_some, List.head?_cons, Option.mem_def,
            Option.some.injEq] at hhd
          subst hhd
          exact hsp a ha
        · rw [if_neg hbrk]
          dsimp only
          obtain ⟨ihc, ihh⟩ := ih (adv cur) (cnt + 1) (some tk0.x)
          constructor
          · simp only [Option.toList_some, List.singleton_append]
            rw [List.chain'_cons']
            exact ⟨fun b hb => ihh tk0.x rfl b hb, ihc⟩
          · intro a ha hd hhd
            simp only [Option.toList_some, List.singleton_append,
              List.head?_cons, Option.mem_def, Option.some.injEq] at hhd
            subst hhd
            exact hsp a ha
      · by_cases hbrk : 100 < cnt
        · rw [if_pos hbrk]
          simp
        · rw [if_neg hbrk]
          dsimp only
          obtain ⟨ihc, ihh⟩ := ih (adv cur) cnt lx
          simpa using ⟨ihc, ihh⟩
    · rw [if_neg hg]
      simp

lemma genTicksGo_len (adv : ℤ → ℤ) (ts te : ℤ) (w mpp msp : ℚ) :
    ∀ (fuel : ℕ) (cur : ℤ) (cnt : ℕ) (lx : Option ℚ), cnt ≤ 100 →
      cnt + (genTicksGo adv ts te w mpp msp fuel cur cnt lx).1.length ≤ 100 := by
  intro fuel
  induction fuel with
  | zero =>
    intro cur cnt lx hcnt
    rw [genTicksGo]
    simpa using hcnt
  | succ n ih =>
    intro cur cnt lx hcnt
    rw [genTicksGo]
    rw [dif_neg (Nat.succ_ne_zero n)]
    simp only [Nat.add_sub_cancel]
    by_cases hg : cur ≤ te ∧ cnt < 100
    · rw [if_pos hg]
      rcases tickStep_cases ts w mpp msp cur cnt lx with
        ⟨tk0, hstep, _, _, _, _⟩ | hstep <;> rw [hstep] <;> dsimp only
      · by_cases hbrk : 100 < cnt + 1
        · rw [if_pos hbrk]
          simp only [Option.toList_some, List.length_singleton]
          omega
        · rw [if_neg hbrk]
          have := ih (adv cur) (cnt + 1) (some tk0.x) (by omega)
          simp only [Option.toList_some, List.singleton_append, List.length_cons]
          omega
      · by_cases hbrk : 100 < cnt
        · rw [if_pos hbrk]
          simpa using hcnt
        · rw [if_neg hbrk]
          have := ih (adv cur) cnt lx hcnt
          simp only [Option.toList_none, List.nil_append]
          omega
    · rw [if_neg hg]
      simpa using hcnt

lemma genTicksGo_complete (adv : ℤ → ℤ) (ts te : ℤ) (w mpp msp : ℚ)
    (hadv : ∀ t, t < adv t) :
    ∀ (fuel : ℕ) (cur : ℤ) (cnt : ℕ) (lx : Option ℚ),
      (te + 1 - cur).toNat < fuel →
      (genTicksGo adv ts te w mpp msp fuel cur cnt lx).2.2 = true := by
  intro fuel
  induction fuel with
  | zero => intro cur cnt lx hfuel; omega
  | succ n ih =>
    intro cur cnt lx hfuel
    rw [genTicksGo]
    rw [dif_neg (Nat.succ_ne_zero n)]
    by_cases hg : cur ≤ te ∧ cnt < 100
    · rw [if_pos hg]
      rcases tickStep_cases ts w mpp msp cur cnt lx with
        ⟨tk0, hstep, _, _, _, _⟩ | hstep <;> rw [hstep] <;> dsimp only
      · by_cases hbrk : 100 < cnt + 1
        · rw [if_pos hbrk]
        · rw [if_neg hbrk]
          have hstep2 := hadv cur
          exact ih (adv cur) (cnt + 1) (some tk0.x) (by omega)
      · by_cases hbrk : 100 < cnt
        · rw [if_pos hbrk]
        · rw [if_neg hbrk]
          have hstep2 := hadv cur
          exact ih (adv cur) cnt lx (by omega)
    · rw [if_neg hg]

/-- C4 (amended): tick generation terminates for every visible window,
zoom parameters, and calendar unit whose advance strictly increases
time — because each iteration strictly advances the current instant
toward the window end, not because of the cap; the hard cap of 100
bounds the number of *retained ticks*, not the number of loop
iterations (see the counterexample exceeding 100 iterations). -/
theorem c4_termination_and_tick_cap (align advance : ℤ → ℤ) (ts te : ℤ)
    (w mpp msp : ℚ) (hadv : ∀ t, t < advance t) :
    (generateTicks align advance ts te w mpp msp).2.2 = true ∧
    (generateTicks align advance ts te w mpp msp).1.length ≤ 100 := by
  constructor
  · exact genTicksGo_complete advance ts te w mpp msp hadv _ _ 0 none (by omega)
  · have := genTicksGo_len advance ts te w mpp msp
      ((te + 1 - align ts).toNat + 1) (align ts) 0 none (by omega)
    simpa [generateTicks] using this

/-- Witness for the amended C4 at a concrete input. -/
theorem c4_termination_and_tick_cap_witness :
    (∀ t : ℤ, t < weekAdvance t) ∧
    (generateTicks weekAlign weekAdvance 0 61084800000 707 86400000 45).2.2
      = true :=
  ⟨fun t => by simp [weekAdvance],
   (c4_termination_and_tick_cap weekAlign weekAdvance 0 61084800000 707
     86400000 45 (fun t => by simp [weekAdvance])).1⟩

lemma genTicksGo_iter_count (ts te : ℤ) (w mpp msp : ℚ) (u : ℤ)
    (hu : 0 < u) (hmpp : 0 < mpp) (hmsp : 0 < msp) (hw : 0 ≤ w) :
    ∀ (N : ℕ) (fuel : ℕ) (cur : ℤ) (cnt : ℕ) (lx : Option ℚ),
      (te + 1 - cur).toNat < fuel →
      (∀ a, lx = some a → 0 ≤ a ∧ w - ((cur : ℚ) - (ts : ℚ)) / mpp ≤ a) →
      ((cnt : ℤ) + Option.elim lx (⌊w / msp⌋ + 1) (fun a => ⌊a / msp⌋) < 100) →
      (N = 0 → te < cur) →
      (N ≠ 0 → cur + ((N : ℤ) - 1) * u ≤ te ∧ te < cur + (N : ℤ) * u) →
      (genTicksGo (fun t => t + u) ts te w mpp msp fuel cur cnt lx).2.1 = N := by
  intro N
  induction N with
  | zero =>
    intro fuel cur cnt lx hfuel _ _ h0 _
    have hlt : te < cur := h0 rfl
    rw [genTicksGo]
    rw [dif_neg (by omega : ¬ fuel = 0)]
    rw [if_neg (by omega : ¬ (cur ≤ te ∧ cnt < 100))]
  | succ n ih =>
    intro fuel cur cnt lx hfuel hinv hcap h0 hs
    obtain ⟨hupper, hlower⟩ := hs (Nat.succ_ne_zero n)
    push_cast at hupper hlower
    have hnu : (0 : ℤ) ≤ (n : ℤ) * u :=
      mul_nonneg (Int.ofNat_nonneg n) hu.le
    have hcur_le : cur ≤ te := by
      have : cur + ((n : ℤ) + 1 - 1) * u = cur + (n : ℤ) * u := by ring
      omega
    have hpot : 0 ≤ Option.elim lx (⌊w / msp⌋ + 1) (fun a => ⌊a / msp⌋) := by
      cases lx with
      | none =>
        have hfw : (0 : ℤ) ≤ ⌊w / msp⌋ :=
          Int.floor_nonneg.mpr (div_nonneg hw hmsp.le)
        dsimp only [Option.elim]
        omega
      | some a =>
        have ha := (hinv a rfl).1
        have hfa : (0 : ℤ) ≤ ⌊a / msp⌋ :=
          Int.floor_nonneg.mpr (div_nonneg ha hmsp.le)
        dsimp only [Option.elim]
        omega
    have hcnt99 : cnt ≤ 99 := by omega
    have humpp : (0 : ℚ) < mpp := hmpp
    have huq : (0 : ℚ) < (u : ℤ) := by exact_mod_cast hu
    have hXmono : w - (((cur + u : ℤ) : ℚ) - (ts : ℚ)) / mpp
        < w - ((cur : ℚ) - (ts : ℚ)) / mpp := by
      have h1 : ((cur : ℚ) - ts) < (((cur + u : ℤ) : ℚ) - ts) := by
        push_cast
        linarith
      have := (div_lt_div_iff_of_pos_right hmpp).mpr h1
      linarith
    rw [genTicksGo]
    rw [dif_neg (by omega : ¬ fuel = 0)]
    rw [if_pos ⟨hcur_le, by omega⟩]
    rcases tickStep_cases ts w mpp msp cur cnt lx with
      ⟨tk0, hstep, h0x, h1x, hsp, hxeq⟩ | hstep <;> rw [hstep] <;> dsimp only
    · rw [if_neg (by omega : ¬ 100 < cnt + 1)]
      dsimp only
      have hrest : (genTicksGo (fun t => t + u) ts te w mpp msp (fuel - 1)
          (cur + u) (cnt + 1) (some tk0.x)).2.1 = n := by
        refine ih (fuel - 1) (cur + u) (cnt + 1) (some tk0.x) (by omega)
          ?_ ?_ ?_ ?_
        · intro a ha
          injection ha with ha
          subst ha
          exact ⟨h0x, by rw [hxeq]; exact hXmono.le⟩
        · have hfl : ⌊tk0.x / msp⌋ ≤
              Option.elim lx (⌊w / msp⌋ + 1) (fun a => ⌊a / msp⌋) - 1 := by
            cases lx with
            | none =>
              have hdw : tk0.x / msp ≤ w / msp :=
                (div_le_div_iff_of_pos_right hmsp).mpr h1x
              have hfw := Int.floor_le_floor hdw
              dsimp only [Option.elim]
              omega
            | some a =>
              obtain ⟨ha0, hale⟩ := hinv a rfl
              have hxa : tk0.x ≤ a := by rw [hxeq]; exact hale
              have habs : msp ≤ a - tk0.x := by
                have := hsp a rfl
                rw [abs_of_nonpos (by linarith)] at this
                linarith
              have hdiv : tk0.x / msp ≤ a / msp - 1 := by
                have h2 : tk0.x ≤ a - msp := by linarith
                have h3 : tk0.x / msp ≤ (a - msp) / msp :=
                  (div_le_div_iff_of_pos_right hmsp).mpr h2
                have h4 : (a - msp) / msp = a / msp - 1 := by
                  field_simp
                linarith
              have := Int.floor_le_floor hdiv
              rw [show a / msp - 1 = a / msp - (1 : ℤ) by push_cast; ring,
                Int.floor_sub_int] at this
              simpa using this
          simp only [Option.elim]
          omega
        · intro hn0
          subst hn0
          have he : cur + (((0 : ℕ) : ℤ) + 1) * u = cur + u := by push_cast; ring
          linarith
        · intro hn0
          constructor
          · have he : cur + u + ((n : ℤ) - 1) * u
                = cur + ((n : ℤ) + 1 - 1) * u := by ring
            linarith
          · have he : cur + u + (n : ℤ) * u = cur + ((n : ℤ) + 1) * u := by ring
            linarith
      rw [hrest]
    · rw [if_neg (by omega : ¬ 100 < cnt)]
      dsimp only
      have hrest : (genTicksGo (fun t => t + u) ts te w mpp msp (fuel - 1)
          (cur + u) cnt lx).2.1 = n := by
        refine ih (fuel - 1) (cur + u) cnt lx (by omega) ?_ hcap ?_ ?_
        · intro a ha
          obtain ⟨ha0, hale⟩ := hinv a ha
          exact ⟨ha0, by linarith⟩
        · intro hn0
          subst hn0
          have he : cur + (((0 : ℕ) : ℤ) + 1) * u = cur + u := by push_cast; ring
          linarith
        · intro hn0
          constructor
          · have he : cur + u + ((n : ℤ) - 1) * u
                = cur + ((n : ℤ) + 1 - 1) * u := by ring
            linarith
          · have he : cur + u + (n : ℤ) * u = cur + ((n : ℤ) + 1) * u := by ring
            linarith
      rw [hrest]

/-- C4 counterexample: at `weeks` zoom (`msPerPixel = 86400000`,
`minTickSpacing = 45`), a 707-pixel-wide visible window spanning
`707 * 86400000` ms makes the generation loop execute its body 102
times (one per week boundary in the window) while retaining far fewer
than 100 ticks, so the number of loop iterations is not bounded by the
cap of 100. -/
theorem c4_counterexample :
    (generateTicks weekAlign weekAdvance 0 61084800000 707 86400000 45).2.1
      = 102 ∧
    ¬ ((generateTicks weekAlign weekAdvance 0 61084800000 707 86400000 45).2.1
      ≤ 100) := by
  have halign : weekAlign 0 = 0 := by norm_num [weekAlign]
  have hadv : weekAdvance = fun t => t + 604800000 := rfl
  have h102 : (generateTicks weekAlign weekAdvance 0 61084800000 707
      86400000 45).2.1 = 102 := by
    unfold generateTicks
    rw [halign, hadv]
    refine genTicksGo_iter_count 0 61084800000 707 86400000 45 604800000
      (by norm_num) (by norm_num) (by norm_num) (by norm_num) 102 _ 0 0 none
      (by norm_num) (by simp) ?_ (by simp) ?_
    · have h15 : ⌊(707 : ℚ) / 45⌋ = 15 := by
        rw [Int.floor_eq_iff]
        norm_num
      simp [h15]
    · intro _
      norm_num
  exact ⟨h102, by rw [h102]; norm_num⟩

/-- C6: every tick retained by `generateTicks` has its pixel position
inside `[0, width]`, and any two consecutively retained ticks are at
least `minTickSpacing` apart — for every zoom level, visible window,
width, and calendar advance. -/
theorem c6_tick_bounds_and_spacing (align advance : ℤ → ℤ)
    (z : ZoomLevel) (ts te : ℤ) (w : ℚ) :
    (∀ tk ∈ (generateTicks align advance ts te w
        (ZOOM_CONFIGS z).msPerPixel (ZOOM_CONFIGS z).minTickSpacing).1,
      0 ≤ tk.x ∧ tk.x ≤ w) ∧
    List.Chain' (fun a b : Tick => (ZOOM_CONFIGS z).minTickSpacing ≤ |b.x - a.x|)
      (generateTicks align advance ts te w
        (ZOOM_CONFIGS z).msPerPixel (ZOOM_CONFIGS z).minTickSpacing).1 :=
  ⟨fun tk htk => genTicksGo_inrange advance ts te w _ _ _ _ _ _ tk htk,
   (genTicksGo_spacing advance ts te w _ _ _ _ _ _).1⟩

/-- Witness for C6 at a concrete input. -/
theorem c6_tick_bounds_and_spacing_witness :
    (⟨105, 0⟩ : Tick) ∈ (generateTicks minuteAlign minuteAdvance 0 120000 105
        (ZOOM_CONFIGS .minutes).msPerPixel (ZOOM_CONFIGS .minutes).minTickSpacing).1 ∧
    (0 ≤ (105 : ℚ) ∧ (105 : ℚ) ≤ 105) := by
  have hmem : (⟨105, 0⟩ : Tick) ∈ (generateTicks minuteAlign minuteAdvance 0
      120000 105 (ZOOM_CONFIGS .minutes).msPerPixel
      (ZOOM_CONFIGS .minutes).minTickSpacing).1 := by
    unfold generateTicks minuteAlign
    norm_num
    rw [genTicksGo]
    norm_num [tickStep, ZOOM_CONFIGS]
  exact ⟨hmem, (c6_tick_bounds_and_spacing minuteAlign minuteAdvance .minutes 0
    120000 105).1 ⟨105, 0⟩ hmem⟩

/-! ## Row packing -/

lemma overlap_symm {a b : TaskBarNoRow} (h : Overlap a b) : Overlap b a :=
  ⟨h.2, h.1⟩

lemma insertByStartX_perm (b : TaskBarNoRow) :
    ∀ l : List TaskBarNoRow, insertByStartX b l ~ b :: l := by
  intro l
  induction l with
  | nil => rfl
  | cons c cs ih =>
    rw [insertByStartX]
    split
    · exact (ih.cons c).trans (List.Perm.swap b c cs)
    · rfl

lemma sortByStartX_perm : ∀ l : List TaskBarNoRow, sortByStartX l ~ l := by
  intro l
  induction l with
  | nil => rfl
  | cons b bs ih =>
    rw [sortByStartX]
    exact (insertByStartX_perm b (sortByStartX bs)).trans (ih.cons b)

lemma insertByStartX_sorted (b : TaskBarNoRow) :
    ∀ l : List TaskBarNoRow,
      l.Pairwise (fun a c => a.startX ≤ c.startX) →
      (insertByStartX b l).Pairwise (fun a c => a.startX ≤ c.startX) := by
  intro l
  induction l with
  | nil => intro _; simp [insertByStartX]
  | cons c cs ih =>
    intro hs
    obtain ⟨hc, hcs⟩ := List.pairwise_cons.mp hs
    rw [insertByStartX]
    split
    · rename_i hlt
      rw [List.pairwise_cons]
      refine ⟨fun d hd => ?_, ih hcs⟩
      rcases List.mem_cons.mp ((insertByStartX_perm b cs).mem_iff.mp hd) with
        hd | hd
      · subst hd; exact hlt.le
      · exact hc d hd
    · rename_i hnlt
      push_neg at hnlt
      rw [List.pairwise_cons]
      refine ⟨fun d hd => ?_, hs⟩
      rcases List.mem_cons.mp hd with hd | hd
      · subst hd; exact hnlt
      · exact le_trans hnlt (hc d hd)

lemma sortByStartX_sorted : ∀ l : List TaskBarNoRow,
    (sortByStartX l).Pairwise (fun a c => a.startX ≤ c.startX) := by
  intro l
  induction l with
  | nil => simp [sortByStartX]
  | cons b bs ih => exact insertByStartX_sorted b (sortByStartX bs) ih

lemma findFirstFit_some_spec (s : ℚ) :
    ∀ (rows : List ℚ) (i : ℕ), findFirstFit rows s = some i →
      ∃ h : i < rows.length, rows.get ⟨i, h⟩ ≤ s := by
  intro rows
  induction rows with
  | nil => intro i h; simp [findFirstFit] at h
  | cons e rest ih =>
    intro i h
    rw [findFirstFit] at h
    split at h
    · rename_i he
      injection h with h
      subst h
      exact ⟨by simp, he⟩
    · obtain ⟨j, hj, rfl⟩ := Option.map_eq_some'.mp h
      obtain ⟨hjl, hjle⟩ := ih j hj
      exact ⟨by simpa using Nat.succ_lt_succ hjl, by simpa using hjle⟩

lemma findFirstFit_none_spec (s : ℚ) :
    ∀ rows : List ℚ, findFirstFit rows s = none → ∀ x ∈ rows, s < x := by
  intro rows
  induction rows with
  | nil => intro _ x hx; simp at hx
  | cons e rest ih =>
    intro h x hx
    rw [findFirstFit] at h
    split at h
    · exact absurd h (by simp)
    · rename_i he
      push_neg at he
      rcases List.mem_cons.mp hx with hx | hx
      · subst hx; exact he
      · exact ih (Option.map_eq_none'.mp h) x hx

lemma assignRowsGo_map_fst :
    ∀ (bars : List TaskBarNoRow) (rows : List ℚ),
      (assignRowsGo rows bars).1.map Prod.fst = bars := by
  intro bars
  induction bars with
  | nil => intro rows; rfl
  | cons b bs ih =>
    intro rows
    rw [assignRowsGo]
    rcases hfind : findFirstFit rows b.startX with _ | j <;>
      simp only [hfind] <;> simp [ih]

lemma assignRowsGo_state_len_mono :
    ∀ (bars : List TaskBarNoRow) (rows : List ℚ),
      rows.length ≤ (assignRowsGo rows bars).2.length := by
  intro bars
  induction bars with
  | nil => intro rows; exact le_rfl
  | cons b bs ih =>
    intro rows
    rw [assignRowsGo]
    rcases hfind : findFirstFit rows b.startX with _ | j <;> simp only [hfind]
    · have := ih (rows ++ [b.endX])
      simp only [List.length_append, List.length_singleton] at this
      omega
    · have := ih (rows.set j b.endX)
      simpa using this

lemma assignRowsGo_rows_lt :
    ∀ (bars : List TaskBarNoRow) (rows : List ℚ),
      ∀ q ∈ (assignRowsGo rows bars).1,
        q.2 < (assignRowsGo rows bars).2.length := by
  intro bars
  induction bars with
  | nil => intro rows q hq; simp [assignRowsGo] at hq
  | cons b bs ih =>
    intro rows q hq
    rw [assignRowsGo] at hq ⊢
    rcases hfind : findFirstFit rows b.startX with _ | j <;>
      simp only [hfind] at hq ⊢
    · rcases List.mem_cons.mp hq with hq | hq
      · subst hq
        have := assignRowsGo_state_len_mono bs (rows ++ [b.endX])
        simp only [List.length_append, List.length_singleton] at this
        omega
      · exact ih (rows ++ [b.endX]) q hq
    · rcases List.mem_cons.mp hq with hq | hq
      · subst hq
        obtain ⟨hj, _⟩ := findFirstFit_some_spec b.startX rows j hfind
        have := assignRowsGo_state_len_mono bs (rows.set j b.endX)
        simp only [List.length_set] at this
        omega
      · exact ih (rows.set j b.endX) q hq

lemma assignRowsGo_row_surj :
    ∀ (bars : List TaskBarNoRow) (rows : List ℚ) (i : ℕ),
      rows.length ≤ i → i < (assignRowsGo rows bars).2.length →
      ∃ q ∈ (assignRowsGo rows bars).1, q.2 = i := by
  intro bars
  induction bars with
  | nil =>
    intro rows i hge hlt
    simp only [assignRowsGo] at hlt
    omega
  | cons b bs ih =>
    intro rows i hge hlt
    rw [assignRowsGo] at hlt ⊢
    rcases hfind : findFirstFit rows b.startX with _ | j <;>
      simp only [hfind] at hlt ⊢
    · by_cases hi : i = rows.length
      · exact ⟨(b, rows.length), List.mem_cons_self _ _, hi.symm⟩
      · have hge2 : (rows ++ [b.endX]).length ≤ i := by
          simp only [List.length_append, List.length_singleton]
          omega
        obtain ⟨q, hq, hqi⟩ := ih (rows ++ [b.endX]) i hge2 hlt
        exact ⟨q, List.mem_cons_of_mem _ hq, hqi⟩
    · have hge2 : (rows.set j b.endX).length ≤ i := by
        simpa using hge
      obtain ⟨q, hq, hqi⟩ := ih (rows.set j b.endX) i hge2 hlt
      exact ⟨q, List.mem_cons_of_mem _ hq, hqi⟩

lemma assignRowsGo_rowlower :
    ∀ (bars : List TaskBarNoRow) (rows : List ℚ),
      bars.Pairwise (fun a c => a.startX ≤ c.startX) →
      ∀ (i : ℕ) (hi : i < rows.length), ∀ q ∈ (assignRowsGo rows bars).1,
        q.2 = i → rows.get ⟨i, hi⟩ ≤ q.1.startX := by
  intro bars
  induction bars with
  | nil => intro rows _ i hi q hq; simp [assignRowsGo] at hq
  | cons b bs ih =>
    intro rows hsort i hi q hq hqi
    obtain ⟨hhead, htail⟩ := List.pairwise_cons.mp hsort
    rw [assignRowsGo] at hq
    rcases hfind : findFirstFit rows b.startX with _ | j <;>
      simp only [hfind] at hq
    · rcases List.mem_cons.mp hq with hq | hq
      · subst hq
        simp only at hqi
        omega
      · have hi2 : i < (rows ++ [b.endX]).length := by
          simp only [List.length_append, List.length_singleton]
          omega
        have hres := ih (rows ++ [b.endX]) htail i hi2 q hq hqi
        have hval : (rows ++ [b.endX]).get ⟨i, hi2⟩ = rows.get ⟨i, hi⟩ := by
          rw [List.get_eq_getElem, List.get_eq_getElem]
          exact List.getElem_append_left hi
        rwa [hval] at hres
    · obtain ⟨hj, hjle⟩ := findFirstFit_some_spec b.startX rows j hfind
      rcases List.mem_cons.mp hq with hq | hq
      · subst hq
        simp only at hqi
        subst hqi
        exact hjle
      · have hi2 : i < (rows.set j b.endX).length := by simpa using hi
        have hres := ih (rows.set j b.endX) htail i hi2 q hq hqi
        by_cases hij : i = j
        · subst hij
          have hmem : q.1 ∈ bs := by
            have hmap := assignRowsGo_map_fst bs (rows.set i b.endX)
            rw [← hmap]
            exact List.mem_map_of_mem Prod.fst hq
          exact le_trans hjle (hhead q.1 hmem)
        · have hval : (rows.set j b.endX).get ⟨i, hi2⟩ = rows.get ⟨i, hi⟩ := by
            rw [List.get_eq_getElem, List.get_eq_getElem]
            exact List.getElem_set_ne (fun h => hij h.symm) _
          rwa [hval] at hres

/-- No two bars that `assignRows` puts in the same row have strictly
overlapping intervals. -/
lemma assignRowsGo_nonoverlap :
    ∀ (bars : List TaskBarNoRow) (rows : List ℚ),
      bars.Pairwise (fun a c => a.startX ≤ c.startX) →
      (assignRowsGo rows bars).1.Pairwise
        (fun p q => p.2 = q.2 → ¬ Overlap p.1 q.1) := by
  intro bars
  induction bars with
  | nil => intro rows _; simp [assignRowsGo]
  | cons b bs ih =>
    intro rows hsort
    obtain ⟨_, htail⟩ := List.pairwise_cons.mp hsort
    rw [assignRowsGo]
    rcases hfind : findFirstFit rows b.startX with _ | j <;>
      simp only [hfind] <;> rw [List.pairwise_cons] <;>
      refine ⟨fun q hq heq => ?_, ih _ htail⟩
    · simp only at heq
      have hlen : rows.length < (rows ++ [b.endX]).length := by simp
      have hres := assignRowsGo_rowlower bs (rows ++ [b.endX]) htail
        rows.length hlen q hq (by omega)
      have hval : (rows ++ [b.endX]).get ⟨rows.length, hlen⟩ = b.endX := by
        rw [List.get_eq_getElem]
        exact List.getElem_concat_length rows b.endX _ rfl _
      rw [hval] at hres
      intro hov
      exact absurd hov.2 (not_lt.mpr hres)
    · simp only at heq
      obtain ⟨hj, _⟩ := findFirstFit_some_spec b.startX rows j hfind
      have hj2 : j < (rows.set j b.endX).length := by simpa using hj
      have hres := assignRowsGo_rowlower bs (rows.set j b.endX) htail j hj2
        q hq (by omega)
      have hval : (rows.set j b.endX).get ⟨j, hj2⟩ = b.endX := by
        rw [List.get_eq_getElem]
        exact List.getElem_set_self _
      rw [hval] at hres
      intro hov
      exact absurd hov.2 (not_lt.mpr hres)

lemma set_perm_cons_eraseIdx {α : Type} :
    ∀ (l : List α) (i : ℕ) (a : α), i < l.length →
      l.set i a ~ a :: l.eraseIdx i := by
  intro l
  induction l with
  | nil => intro i a h; simp at h
  | cons b l ih =>
    intro i a h
    cases i with
    | zero => simp [List.set, List.eraseIdx]
    | succ j =>
      have hj : j < l.length := by simpa using h
      calc (b :: l).set (j + 1) a = b :: l.set j a := rfl
        _ ~ b :: (a :: l.eraseIdx j) := (ih j a hj).cons b
        _ ~ a :: (b :: l.eraseIdx j) := List.Perm.swap a b _
        _ = a :: (b :: l).eraseIdx (j + 1) := rfl

lemma exists_sublist_of_map {α β : Type} (f : α → β) :
    ∀ (l : List α) (s : List β), s <+ l.map f →
      ∃ t, t <+ l ∧ t.map f = s := by
  intro l
  induction l with
  | nil => intro s h; simp at h; exact ⟨[], by simp [h]⟩
  | cons a l ih =>
    intro s h
    rw [List.map_cons] at h
    cases h with
    | cons _ h2 =>
      obtain ⟨t, ht, rfl⟩ := ih _ h2
      exact ⟨t, ht.cons a, rfl⟩
    | cons₂ _ h2 =>
      obtain ⟨t, ht, rfl⟩ := ih _ h2
      exact ⟨a :: t, ht.cons₂ a, rfl⟩

lemma subperm_cons_cons {α : Type} {l₁ l₂ : List α} (a : α)
    (h : l₁ <+~ l₂) : a :: l₁ <+~ a :: l₂ := by
  obtain ⟨m, hm1, hm2⟩ := h
  exact ⟨a :: m, hm1.cons a, hm2.cons₂ a⟩

/-- The clique invariant: whenever the greedy loop has `k` active rows,
there are `k` pairwise-overlapping bars among those already processed
(each row is witnessed by the last bar placed in it), and a larger
clique appears whenever a new row is created.  Requires every bar to
have positive width. -/
lemma assignRowsGo_clique :
    ∀ (bars : List TaskBarNoRow) (rows : List ℚ)
      (processed cs : List TaskBarNoRow),
      bars.Pairwise (fun a c => a.startX ≤ c.startX) →
      (∀ b ∈ bars, b.startX < b.endX) →
      (∀ c ∈ processed, ∀ b ∈ bars, c.startX ≤ b.startX) →
      cs <+~ processed →
      cs.length = rows.length →
      (∀ (j : ℕ) (hj1 : j < rows.length) (hj2 : j < cs.length),
        (cs.get ⟨j, hj2⟩).endX = rows.get ⟨j, hj1⟩) →
      (∃ S, S.Pairwise Overlap ∧ S.length = rows.length ∧ S <+~ processed) →
      ∃ S, S.Pairwise Overlap ∧
        S.length = (assignRowsGo rows bars).2.length ∧
        S <+~ processed ++ bars := by
  intro bars
  induction bars with
  | nil =>
    intro rows processed cs _ _ _ _ _ _ hclique
    obtain ⟨S, h1, h2, h3⟩ := hclique
    exact ⟨S, h1, h2, by simpa using h3⟩
  | cons b bs ih =>
    intro rows processed cs hsort hpos hproc hsub hlen hget hclique
    obtain ⟨hhead, htail⟩ := List.pairwise_cons.mp hsort
    have hposb : b.startX < b.endX := hpos b (List.mem_cons_self _ _)
    have hproc2 : ∀ c ∈ processed ++ [b], ∀ d ∈ bs, c.startX ≤ d.startX := by
      intro c hc d hd
      rcases List.mem_append.mp hc with hc | hc
      · exact hproc c hc d (List.mem_cons_of_mem _ hd)
      · rw [List.mem_singleton] at hc
        subst hc
        exact hhead d hd
    have happ : (processed ++ [b]) ++ bs = processed ++ b :: bs := by
      rw [List.append_assoc]
      rfl
    rw [assignRowsGo]
    rcases hfind : findFirstFit rows b.startX with _ | j <;>
      simp only [hfind]
    · -- no fit: a new row is appended and the clique grows
      have hnone := findFirstFit_none_spec b.startX rows hfind
      have hcs_proc : ∀ c ∈ cs, c ∈ processed := fun c hc => hsub.subset hc
      have hcsend : ∀ c ∈ cs, b.startX < c.endX := by
        intro c hc
        obtain ⟨j, rfl⟩ := List.mem_iff_get.mp hc
        have hje : (j : ℕ) < rows.length := by omega
        have hce : (cs.get j).endX = rows.get ⟨(j : ℕ), hje⟩ :=
          hget (j : ℕ) hje j.isLt
        rw [hce]
        exact hnone _ (List.get_mem rows _ _)
      have hcsstart : ∀ c ∈ cs, c.startX ≤ b.startX := fun c hc =>
        hproc c (hcs_proc c hc) b (List.mem_cons_self _ _)
      have hclique2 : ∃ S, S.Pairwise Overlap ∧
          S.length = (rows ++ [b.endX]).length ∧ S <+~ processed ++ [b] := by
        refine ⟨b :: cs, ?_, by simp [hlen], ?_⟩
        · have hall : ∀ x ∈ b :: cs, x.startX ≤ b.startX ∧ b.startX < x.endX := by
            intro x hx
            rcases List.mem_cons.mp hx with hx | hx
            · subst hx; exact ⟨le_refl _, hposb⟩
            · exact ⟨hcsstart x hx, hcsend x hx⟩
          refine List.pairwise_of_forall_mem_list ?_
          intro x hx y hy
          obtain ⟨h1, h2⟩ := hall x hx
          obtain ⟨h3, h4⟩ := hall y hy
          exact ⟨lt_of_le_of_lt h1 h4, lt_of_le_of_lt h3 h2⟩
        · have h1 : b :: cs ~ cs ++ [b] := (List.perm_append_singleton b cs).symm
          have h2 : cs ++ [b] <+~ processed ++ [b] :=
            (List.subperm_append_right [b]).mpr hsub
          exact h1.subperm_right.mpr h2
      have hget2 : ∀ (j : ℕ) (hj1 : j < (rows ++ [b.endX]).length)
          (hj2 : j < (cs ++ [b]).length),
          ((cs ++ [b]).get ⟨j, hj2⟩).endX = (rows ++ [b.endX]).get ⟨j, hj1⟩ := by
        intro j hj1 hj2
        by_cases hjr : j < rows.length
        · have hjc : j < cs.length := by omega
          have e1 : (cs ++ [b]).get ⟨j, hj2⟩ = cs.get ⟨j, hjc⟩ := by
            rw [List.get_eq_getElem, List.get_eq_getElem]
            exact List.getElem_append_left hjc
          have e2 : (rows ++ [b.endX]).get ⟨j, hj1⟩ = rows.get ⟨j, hjr⟩ := by
            rw [List.get_eq_getElem, List.get_eq_getElem]
            exact List.getElem_append_left hjr
          rw [e1, e2]
          exact hget j hjr hjc
        · have hjr2 : j = rows.length := by
            simp only [List.length_append, List.length_singleton] at hj1
            omega
          subst hjr2
          have e1 : (rows ++ [b.endX]).get ⟨rows.length, hj1⟩ = b.endX := by
            rw [List.get_eq_getElem]
            exact List.getElem_concat_length rows b.endX _ rfl _
          have e2 : (cs ++ [b]).get ⟨rows.length, hj2⟩ = b := by
            rw [List.get_eq_getElem]
            exact List.getElem_concat_length cs b _ hlen.symm _
          rw [e1, e2]
      have hsub2 : cs ++ [b] <+~ processed ++ [b] :=
        (List.subperm_append_right [b]).mpr hsub
      have hres := ih (rows ++ [b.endX]) (processed ++ [b]) (cs ++ [b]) htail
        (fun d hd => hpos d (List.mem_cons_of_mem _ hd)) hproc2 hsub2
        (by simp [hlen]) hget2 hclique2
      rwa [happ] at hres
    · -- the bar fits in row j
      obtain ⟨hj, hjle⟩ := findFirstFit_some_spec b.startX rows j hfind
      have hjc : j < cs.length := by omega
      have hsub2 : cs.set j b <+~ processed ++ [b] := by
        have h1 : cs.set j b ~ b :: cs.eraseIdx j :=
          set_perm_cons_eraseIdx cs j b hjc
        have h2 : cs.eraseIdx j <+~ processed :=
          (List.eraseIdx_sublist cs j).subperm.trans hsub
        have h3 : b :: cs.eraseIdx j <+~ b :: processed :=
          subperm_cons_cons b h2
        have h4 : b :: processed ~ processed ++ [b] :=
          (List.perm_append_singleton b processed).symm
        exact h1.subperm_right.mpr (h3.trans h4.subperm)
      have hget2 : ∀ (i : ℕ) (hj1 : i < (rows.set j b.endX).length)
          (hj2 : i < (cs.set j b).length),
          ((cs.set j b).get ⟨i, hj2⟩).endX
            = (rows.set j b.endX).get ⟨i, hj1⟩ := by
        intro i hj1 hj2
        by_cases hij : i = j
        · subst hij
          have e1 : (cs.set i b).get ⟨i, hj2⟩ = b := by
            rw [List.get_eq_getElem]
            exact List.getElem_set_self _
          have e2 : (rows.set i b.endX).get ⟨i, hj1⟩ = b.endX := by
            rw [List.get_eq_getElem]
            exact List.getElem_set_self _
          rw [e1, e2]
        · have hir : i < rows.length := by simpa using hj1
          have hic : i < cs.length := by simpa using hj2
          have e1 : (cs.set j b).get ⟨i, hj2⟩ = cs.get ⟨i, hic⟩ := by
            rw [List.get_eq_getElem, List.get_eq_getElem]
            exact List.getElem_set_ne (fun h => hij h.symm) _
          have e2 : (rows.set j b.endX).get ⟨i, hj1⟩ = rows.get ⟨i, hir⟩ := by
            rw [List.get_eq_getElem, List.get_eq_getElem]
            exact List.getElem_set_ne (fun h => hij h.symm) _
          rw [e1, e2]
          exact hget i hir hic
      have hclique2 : ∃ S, S.Pairwise Overlap ∧
          S.length = (rows.set j b.endX).length ∧ S <+~ processed ++ [b] := by
        obtain ⟨S, h1, h2, h3⟩ := hclique
        exact ⟨S, h1, by simpa using h2,
          h3.trans (List.sublist_append_left processed [b]).subperm⟩
      have hres := ih (rows.set j b.endX) (processed ++ [b]) (cs.set j b) htail
        (fun d hd => hpos d (List.mem_cons_of_mem _ hd)) hproc2 hsub2
        (by simp [hlen]) hget2 hclique2
      rwa [happ] at hres

/-- Any clique of pairwise-overlapping bars forces a valid assignment
to use at least that many distinct rows. -/
lemma clique_le_rowsUsed (S : List TaskBarNoRow)
    (A : List (TaskBarNoRow × ℕ)) (hS : S.Pairwise Overlap)
    (hsub : S <+~ A.map Prod.fst) (hA : ValidAssignment A) :
    S.length ≤ rowsUsed A := by
  obtain ⟨S2, hperm, hsl⟩ := hsub
  have hS2 : S2.Pairwise Overlap :=
    (hperm.pairwise_iff fun hxy => overlap_symm hxy).mpr hS
  obtain ⟨T, hT, hTmap⟩ := exists_sublist_of_map Prod.fst A S2 hsl
  have hTvalid : T.Pairwise (fun p q => p.2 = q.2 → ¬ Overlap p.1 q.1) :=
    hA.sublist hT
  have hTov : T.Pairwise (fun p q => Overlap p.1 q.1) := by
    rw [← hTmap] at hS2
    exact List.pairwise_map.mp hS2
  have hTne : (T.map Prod.snd).Pairwise (fun m n => m ≠ n) := by
    rw [List.pairwise_map]
    exact (hTvalid.and hTov).imp fun h heq => (h.1 heq) h.2
  have hsubset : T.map Prod.snd ⊆ (A.map Prod.snd).dedup := by
    intro x hx
    rw [List.mem_dedup]
    exact (hT.map Prod.snd).subset hx
  have hlen := (List.Nodup.subperm hTne hsubset).length_le
  have h1 : S.length = S2.length := hperm.length_eq.symm
  have h2 : S2.length = T.length := by
    rw [← hTmap, List.length_map]
  rw [rowsUsed]
  rw [List.length_map] at hlen
  omega

/-- Distinct rows used by the greedy output equal the final number of
active rows. -/
lemma rowsUsed_assignRows (l : List TaskBarNoRow) :
    rowsUsed (assignRows l) = numRowsUsed l := by
  rw [rowsUsed, assignRows, numRowsUsed]
  have hlt := assignRowsGo_rows_lt (sortByStartX l) []
  have hsurj := assignRowsGo_row_surj (sortByStartX l) []
  have hsub1 : ((assignRowsGo [] (sortByStartX l)).1.map Prod.snd).dedup
      ⊆ List.range (assignRowsGo [] (sortByStartX l)).2.length := by
    intro x hx
    rw [List.mem_dedup] at hx
    obtain ⟨q, hq, rfl⟩ := List.mem_map.mp hx
    rw [List.mem_range]
    exact hlt q hq
  have hsub2 : List.range (assignRowsGo [] (sortByStartX l)).2.length
      ⊆ ((assignRowsGo [] (sortByStartX l)).1.map Prod.snd).dedup := by
    intro x hx
    rw [List.mem_range] at hx
    obtain ⟨q, hq, hqx⟩ := hsurj x (by simp) hx
    rw [List.mem_dedup]
    exact List.mem_map.mpr ⟨q, hq, hqx⟩
  have h1 := (List.Nodup.subperm (List.nodup_dedup _) hsub1).length_le
  have h2 := (List.Nodup.subperm (List.nodup_range _) hsub2).length_le
  rw [List.length_range] at h1 h2
  omega

/-- C1 counterexample (to the minimality half, for a degenerate
zero-width bar): on bars `[0,5]` and `[0,0]` the greedy algorithm uses
2 rows, while assigning both bars row 0 is a valid assignment (the
zero-width interval does not strictly overlap `[0,5]`) using 1 row. -/
theorem c1_counterexample :
    numRowsUsed
      [⟨⟨"a", none, ""⟩, 0, 5, "", false⟩,
       ⟨⟨"b", none, ""⟩, 0, 0, "", false⟩] = 2 ∧
    ValidAssignment
      [(⟨⟨"a", none, ""⟩, 0, 5, "", false⟩, 0),
       (⟨⟨"b", none, ""⟩, 0, 0, "", false⟩, 0)] ∧
    ([(⟨⟨"a", none, ""⟩, 0, 5, "", false⟩, 0),
       (⟨⟨"b", none, ""⟩, 0, 0, "", false⟩, 0)] :
        List (TaskBarNoRow × ℕ)).map Prod.fst
      = [⟨⟨"a", none, ""⟩, 0, 5, "", false⟩,
         ⟨⟨"b", none, ""⟩, 0, 0, "", false⟩] ∧
    rowsUsed
      [(⟨⟨"a", none, ""⟩, 0, 5, "", false⟩, 0),
       (⟨⟨"b", none, ""⟩, 0, 0, "", false⟩, 0)] = 1 := by
  refine ⟨by decide, ?_, by decide, by decide⟩
  rw [ValidAssignment]
  decide

/-- C1 (amended): for every input, no two bars assigned the same row by
`assignRows` overlap, and the number of distinct rows in the output
equals the number of active rows the greedy loop built; when every bar
additionally has positive width (`startX < endX`), that row count is
minimal among all valid assignments of the same bars.  (For zero-width
bars minimality can fail: see the counterexample.) -/
theorem c1_rowpacking_amended (l : List TaskBarNoRow) :
    (assignRows l).Pairwise (fun p q => p.2 = q.2 → ¬ Overlap p.1 q.1) ∧
    rowsUsed (assignRows l) = numRowsUsed l ∧
    ((∀ b ∈ l, b.startX < b.endX) →
      ∀ A : List (TaskBarNoRow × ℕ), A.map Prod.fst ~ l →
        ValidAssignment A → numRowsUsed l ≤ rowsUsed A) := by
  refine ⟨assignRowsGo_nonoverlap (sortByStartX l) [] (sortByStartX_sorted l),
    rowsUsed_assignRows l, fun hpos A hAperm hAvalid => ?_⟩
  have hposs : ∀ b ∈ sortByStartX l, b.startX < b.endX := fun b hb =>
    hpos b ((sortByStartX_perm l).mem_iff.mp hb)
  obtain ⟨S, hSov, hSlen, hSsub⟩ := assignRowsGo_clique (sortByStartX l) []
    [] [] (sortByStartX_sorted l) hposs (by simp) (List.Subperm.refl [])
    rfl (by simp) ⟨[], by simp, rfl, List.Subperm.refl []⟩
  rw [List.nil_append] at hSsub
  have hSsub2 : S <+~ A.map Prod.fst :=
    hSsub.trans ((sortByStartX_perm l).trans hAperm.symm).subperm
  have hfin := clique_le_rowsUsed S A hSov hSsub2 hAvalid
  rw [numRowsUsed]
  omega

/-- Witness for the amended C1 at the specification's worked example:
bars `[0,50]`, `[30,80]`, `[60,100]`. -/
theorem c1_rowpacking_amended_witness :
    (∀ b ∈ [(⟨⟨"a", none, ""⟩, 0, 50, "", false⟩ : TaskBarNoRow),
        ⟨⟨"b", none, ""⟩, 30, 80, "", false⟩,
        ⟨⟨"c", none, ""⟩, 60, 100, "", false⟩], b.startX < b.endX) ∧
    ([(⟨⟨"a", none, ""⟩, 0, 50, "", false⟩, 0),
      (⟨⟨"b", none, ""⟩, 30, 80, "", false⟩, 1),
      (⟨⟨"c", none, ""⟩, 60, 100, "", false⟩, 0)].map
        (Prod.fst (α := TaskBarNoRow) (β := ℕ))
      ~ [⟨⟨"a", none, ""⟩, 0, 50, "", false⟩,
         ⟨⟨"b", none, ""⟩, 30, 80, "", false⟩,
         ⟨⟨"c", none, ""⟩, 60, 100, "", false⟩]) ∧
    ValidAssignment
      [(⟨⟨"a", none, ""⟩, 0, 50, "", false⟩, 0),
       (⟨⟨"b", none, ""⟩, 30, 80, "", false⟩, 1),
       (⟨⟨"c", none, ""⟩, 60, 100, "", false⟩, 0)] ∧
    numRowsUsed
      [⟨⟨"a", none, ""⟩, 0, 50, "", false⟩,
       ⟨⟨"b", none, ""⟩, 30, 80, "", false⟩,
       ⟨⟨"c", none, ""⟩, 60, 100, "", false⟩]
      ≤ rowsUsed
        [(⟨⟨"a", none, ""⟩, 0, 50, "", false⟩, 0),
         (⟨⟨"b", none, ""⟩, 30, 80, "", false⟩, 1),
         (⟨⟨"c", none, ""⟩, 60, 100, "", false⟩, 0)] := by
  refine ⟨by decide, by decide, ?_, ?_⟩
  · rw [ValidAssignment]
    decide
  · exact (c1_rowpacking_amended _).2.2 (by decide) _ (by decide)
      (by rw [ValidAssignment]; decide)

end Sched
